import Mathlib

/- Verification of the ReducedMachine simulator (reducedmachine.py):
   the symbol codec, the electronic store, and the fetch/decode/execute
   engine, embedded as executable Lean definitions. -/

set_option maxRecDepth 10000

/-- The ordered 32-symbol alphabet of the machine (`symbols` in the source);
    a symbol's position in this list is its numeric value. -/
def symbols : List Char :=
  ['/', 'E', '@', 'A', ':', 'S', 'I', 'U', '8', 'D', 'R',
   'J', 'N', 'F', 'C', 'K', 'T', 'Z', 'L', 'W', 'H', 'Y',
   'P', 'Q', 'O', 'B', 'G', '\"', 'M', 'X', 'V', '£']

/-- A symbolic string (a Python `str` over the machine alphabet). -/
abbrev SymStr := List Char

/-- The `while n != 0: (n, m) = divmod(n, len(symbols))` loop of
    `int_to_symbols`, with explicit fuel (the loop runs at most `n` times,
    since `n / 32 < n` for positive `n`). -/
def digitsGo (fuel n : Nat) : List Char :=
  match fuel with
  | 0 => []
  | fuel + 1 => if n = 0 then [] else symbols.getD (n % 32) '/' :: digitsGo fuel (n / 32)

/-- Base-32 digits of `n`, least significant first. -/
def digitsLSB (n : Nat) : List Char := digitsGo n n

/-- Python `str.ljust(size, c)`: right-pad with `c` up to length `size`
    (a longer string is returned unchanged, never truncated). -/
def ljust (l : List Char) (size : Nat) (c : Char) : List Char :=
  l ++ List.replicate (size - l.length) c

/-- `int_to_symbols(n, size)`: reduce `n` modulo `2^linesize = 2^20`, emit
    base-32 digits least-significant first, pad with the zero symbol `/`. -/
def int_to_symbols (n : Int) (size : Nat) : SymStr :=
  ljust (digitsLSB (n % (2 ^ 20 : Int)).toNat) size '/'

/-- `symbols_to_int(sym)`: value of a least-significant-first base-32 numeral
    (`out += symbols.index(s) * math.pow(2, i)` with `i` stepping by 5). -/
def symbols_to_int : SymStr → Nat
  | [] => 0
  | c :: rest => symbols.indexOf c + 32 * symbols_to_int rest

/-- A raised Python exception, recorded as (exception class name, message). -/
structure RMError where
  cls : String
  msg : String
deriving DecidableEq

/-- The exception produced by a failed `assert`. -/
def assertionError : RMError := ⟨"AssertionError", ""⟩

/-- The electronic store's dict, in Python insertion order. -/
abbrev Mem := List (SymStr × SymStr)

/-- Python dict lookup `m[k]` (as an option). -/
def dictGet? (m : Mem) (k : SymStr) : Option SymStr :=
  match m with
  | [] => none
  | p :: rest => if p.1 = k then some p.2 else dictGet? rest k

/-- Python dict assignment `m[k] = v`: update an existing key in place,
    otherwise append the new pair at the end. -/
def dictInsert (m : Mem) (k : SymStr) (v : SymStr) : Mem :=
  match m with
  | [] => [(k, v)]
  | p :: rest => if p.1 = k then (k, v) :: rest else p :: dictInsert rest k v

/-- `textwrap.wrap(val, 4)` on whitespace-free symbol text: split into
    consecutive chunks of at most 4 characters. -/
def wrap4 : SymStr → List SymStr
  | [] => []
  | [a] => [[a]]
  | [a, b] => [[a, b]]
  | [a, b, c] => [[a, b, c]]
  | a :: b :: c :: d :: rest => [a, b, c, d] :: wrap4 rest

namespace EStore

/-- `EStore.valid(val, length)`: length at most `length` and every character
    drawn from the 32-symbol alphabet. -/
def valid (val : SymStr) (length : Nat) : Bool :=
  val.length ≤ length && val.all (fun c => decide (c ∈ symbols))

/-- The `for i, v in enumerate(val)` loop of `EStore.set`: write chunk `i`,
    padded to a full line, at address `(loc_int + i) % 1024`. -/
def setChunks (loc_int : Nat) (m : Mem) (i : Nat) : List SymStr → Mem
  | [] => m
  | v :: rest =>
    setChunks loc_int
      (dictInsert m (int_to_symbols (((loc_int + i) % 1024 : Nat) : Int) 2)
        (ljust v 4 '/'))
      (i + 1) rest

/-- `EStore.set(loc, val)`: validate both fields (raising `AssertionError`
    before any write if either is malformed), then write the line chunks. -/
def set (m : Mem) (loc val : SymStr) : Except RMError Mem :=
  if valid loc 2 then
    if valid val 8 then
      .ok (setChunks (symbols_to_int loc) m 0 (wrap4 val))
    else .error assertionError
  else .error assertionError

/-- The `for i in range(lines)` loop of `EStore.get`: materialise the line at
    `(base) % 1024` to `////` if absent, append it to the output, continue. -/
def getLines (m : Mem) (base : Nat) : Nat → SymStr × Mem
  | 0 => ([], m)
  | lines + 1 =>
    let newloc := int_to_symbols ((base % 1024 : Nat) : Int) 2
    let m' := match dictGet? m newloc with
      | some _ => m
      | none => dictInsert m newloc ['/', '/', '/', '/']
    let rest := getLines m' (base + 1) lines
    ((dictGet? m' newloc).getD [] ++ rest.1, rest.2)

/-- `EStore.get(loc, lines)` with a string address (`returnstring = True`):
    returns the concatenated lines together with the updated memory. -/
def get (m : Mem) (loc : SymStr) (lines : Nat) : Except RMError (SymStr × Mem) :=
  if valid loc 2 then
    if 1 ≤ lines then .ok (getLines m (symbols_to_int loc) lines)
    else .error assertionError
  else .error assertionError

/-- `EStore.get(loc, lines)` with a numeric address (`returnstring = False`):
    the address is re-encoded for validation and the output is decoded. -/
def getInt (m : Mem) (loc : Nat) (lines : Nat) : Except RMError (Nat × Mem) :=
  if valid (int_to_symbols (loc : Int) 2) 2 then
    if 1 ≤ lines then
      let r := getLines m loc lines
      .ok (symbols_to_int r.1, r.2)
    else .error assertionError
  else .error assertionError

/-- `EStore.dump()`: one `addr value` entry per materialised line. -/
def dump (m : Mem) : List SymStr :=
  m.map (fun p => p.1 ++ [' '] ++ p.2)

/-- `EStore.load` applied to already-parsed (address, value) pairs. -/
def load (m : Mem) : List (SymStr × SymStr) → Except RMError Mem
  | [] => .ok m
  | p :: rest =>
    match set m p.1 p.2 with
    | .ok m' => load m' rest
    | .error e => .error e

end EStore

/-- The complete state of a Reduced Machine (`State` in the source):
    accumulator `A`, electronic store, instruction counter `C`, and
    present-instruction register `S`. -/
structure State where
  A : Int
  e_store : Mem
  C : Nat
  S : Nat
deriving DecidableEq

/-- `State(0, e_store)`: accumulator 0, `C = max_short_line_size - 1 = 1023`,
    `S = 0`. -/
def State.initial (m : Mem) : State := ⟨0, m, 1024 - 1, 0⟩

namespace ReducedMachine

/-- The fetch step `I`: increment `C` modulo 1024, then load `S` as the
    integer decoding of the line at the new address. -/
def I (st : State) : Except RMError State :=
  let C' := (st.C + 1) % 1024
  match EStore.getInt st.e_store C' 1 with
  | .error e => .error e
  | .ok (s, m') => .ok { st with C := C', S := s, e_store := m' }

/-- `applyInstruction`: decode `S` into line-pair and function code, fetch the
    one-line and two-line operands (materialising defaults as a side effect),
    then dispatch on the function code exactly as the source's `if` chain. -/
def applyInstruction (st : State) : Except RMError State :=
  let instr := int_to_symbols (st.S : Int) 4
  let line_pair := instr.take 2
  let func_sym := instr.drop 2
  match EStore.getInt st.e_store (st.S % 1024) 1 with
  | .error e => .error e
  | .ok (s_data, m1) =>
    match EStore.getInt m1 (st.S % 1024) 2 with
    | .error e => .error e
    | .ok (s_pair_data, m2) =>
      let acc_symbols := int_to_symbols st.A 8
      if func_sym = ['/', 'H'] then
        if ¬((2 : Int) ^ 40 > st.A ∧ st.A ≥ (2 : Int) ^ 39) then
          .ok { st with e_store := m2, C := s_data % 1024 }
        else
          .ok { st with e_store := m2 }
      else if func_sym = ['/', 'P'] then
        .ok { st with e_store := m2, C := s_data % 1024 }
      else if func_sym = ['/', 'S'] then
        match EStore.set m2 line_pair acc_symbols with
        | .error e => .error e
        | .ok m3 => .ok { st with e_store := m3, S := (st.A % (2 : Int) ^ 20).toNat }
      else if func_sym = ['T', '/'] then
        .ok { st with e_store := m2, A := ((s_pair_data % 2 ^ 40 : Nat) : Int) }
      else if func_sym = ['T', ':'] then
        .ok { st with e_store := m2, A := 0 }
      else if func_sym = ['T', 'I'] then
        .ok { st with e_store := m2, A := st.A + ((s_pair_data % 2 ^ 40 : Nat) : Int) }
      else if func_sym = ['T', 'N'] then
        .ok { st with e_store := m2, A := st.A - ((s_pair_data % 2 ^ 40 : Nat) : Int) }
      else if func_sym = ['T', 'F'] then
        .error ⟨"InvalidInstructionError", "TF currently unimplemented"⟩
      else if func_sym = ['T', 'K'] then
        .ok { st with e_store := m2, A := ((s_pair_data * 2 % 2 ^ 40 : Nat) : Int) }
      else if func_sym = ['T', '£'] then
        .ok { st with e_store := m2 }
      else
        .error ⟨"InvalidInstructionError",
                "Instruction " ++ String.mk instr ++ " does not exist!"⟩

/-- One `next` step: fetch, then execute. -/
def next (st : State) : Except RMError State :=
  match I st with
  | .error e => .error e
  | .ok st' => applyInstruction st'

/-- Outcome of `run`: halting-loop detection at step index `n` (so `n + 1`
    cycles executed), the step bound reached, a raised exception, or fuel
    exhaustion of the embedding. -/
inductive RunResult where
  | haltLoop : Nat → State → RunResult
  | stepBound : State → RunResult
  | failed : RMError → RunResult
  | fuelOut : RunResult
deriving DecidableEq

/-- The `while (n < steps or steps == 0)` loop of `run`: record the
    pre-fetch counter, step, and stop when it equals the post-execute
    counter. -/
def runAux (steps : Int) : State → Nat → Nat → RunResult
  | _, _, 0 => .fuelOut
  | st, n, fuel + 1 =>
    if (n : Int) < steps ∨ steps = 0 then
      match next st with
      | .error e => .failed e
      | .ok st' =>
        if st.C = st'.C then .haltLoop n st'
        else runAux steps st' (n + 1) fuel
    else .stepBound st

/-- `run(steps)` from the canonical initial state over the given memory. -/
def run (m : Mem) (steps : Int) (fuel : Nat) : RunResult :=
  runAux steps (State.initial m) 0 fuel

/-- Number of executed cycles when the run ended by halting-loop detection. -/
def RunResult.loopCycles? : RunResult → Option Nat
  | .haltLoop n _ => some (n + 1)
  | _ => none

/-- Final accumulator of a run that terminated without an exception. -/
def RunResult.finalA? : RunResult → Option Int
  | .haltLoop _ st => some st.A
  | .stepBound st => some st.A
  | _ => none

/-- The exception that ended the run, if any. -/
def RunResult.error? : RunResult → Option RMError
  | .failed e => some e
  | _ => none

end ReducedMachine

/-! ### Concrete scenarios used by the claims -/

/-- Memory of the one-line program at address `//` (0) holding `///P`: an
    unconditional branch whose target is its own address (decode `///P` =
    720896, and 720896 mod 1024 = 0). -/
def selfBranchMem : Mem := [(['/', '/'], ['/', '/', '/', 'P'])]

/-- Memory of the two-line program: at address 0 the unconditional branch
    `E//P` reading its operand from address 1, and at address 1 the line
    `££//` holding the value 1023 (the branch's own address minus one,
    which is also the initial program counter). -/
def loopTo1023Mem : Mem :=
  [(['/', '/'], ['E', '/', '/', 'P']), (['E', '/'], ['£', '£', '/', '/'])]

/-- A state about to execute `//TI` (add, operand address 0) with the
    accumulator at its maximum 40-bit value and an operand of value 1. -/
def stAddOverflow : State :=
  ⟨2 ^ 40 - 1, [(['/', '/'], ['E', '/', '/', '/'])], 0, 212992⟩

/-- A state about to execute `//TF` (the negate instruction). -/
def stNegate : State := ⟨0, [], 0, 442368⟩

/-- A state about to execute `////`, which matches no function code. -/
def stUnrecognized : State := ⟨0, [], 0, 0⟩

/-- A state about to execute the no-op `//T£` over an empty store. -/
def stNoop : State := ⟨7, [], 5, 1032192⟩

/-- A state about to execute `//TI` (add, operand address 0) with
    accumulator 5 and an operand of value 1. -/
def stAddDemo : State := ⟨5, [(['/', '/'], ['E', '/', '/', '/'])], 0, 212992⟩

/-- `stAddDemo`'s memory after the one-line operand fetch (unchanged:
    address 0 is already materialised). -/
def memAddDemo1 : Mem := [(['/', '/'], ['E', '/', '/', '/'])]

/-- `stAddDemo`'s memory after both operand fetches (address 1 has been
    materialised to the zero line). -/
def memAddDemo2 : Mem :=
  [(['/', '/'], ['E', '/', '/', '/']), (['E', '/'], ['/', '/', '/', '/'])]

/-- `stNoop`'s memory after the one-line operand fetch. -/
def memNoop1 : Mem := [(['/', '/'], ['/', '/', '/', '/'])]

/-- `stNoop`'s memory after both operand fetches. -/
def memNoop2 : Mem :=
  [(['/', '/'], ['/', '/', '/', '/']), (['E', '/'], ['/', '/', '/', '/'])]

/-- Store-then-load: from accumulator `A`, execute `@//S` (store the
    accumulator to line-pair address 2), then execute `@/T/` (load the two
    lines at address 2); the result is the final accumulator. -/
def storeLoadScenario (A : Int) : Option Int :=
  match ReducedMachine.applyInstruction ⟨A, [], 0, 163842⟩ with
  | .error _ => none
  | .ok st1 =>
    match ReducedMachine.applyInstruction { st1 with S := 16386 } with
    | .error _ => none
    | .ok st2 => some st2.A

/-- The line the store instruction actually writes for accumulator `A`: the
    base-32 digits of `A mod 2^20`, zero-padded to one line (the second line
    written is all zero symbols, since the codec has already discarded
    everything above the line width). -/
def storedLine (A : Int) : SymStr :=
  digitsLSB ((A % (2 ^ 20 : Int)).toNat) ++
    List.replicate (4 - (digitsLSB ((A % (2 ^ 20 : Int)).toNat)).length) '/'

/-! ### Operation sequences over the store (for the store invariant) -/

/-- One externally invokable store operation. -/
inductive Op where
  | setOp : SymStr → SymStr → Op
  | getOp : SymStr → Nat → Op
  | getIntOp : Nat → Nat → Op

/-- Run one operation, keeping the previous memory if the operation raised
    (a failed `assert` fires before any mutation). -/
def applyOp (m : Mem) : Op → Mem
  | .setOp loc val =>
    match EStore.set m loc val with
    | .ok m' => m'
    | .error _ => m
  | .getOp loc lines =>
    match EStore.get m loc lines with
    | .ok r => r.2
    | .error _ => m
  | .getIntOp loc lines =>
    match EStore.getInt m loc lines with
    | .ok r => r.2
    | .error _ => m

/-- Run a sequence of store operations from a starting memory. -/
def applyOps (m : Mem) : List Op → Mem
  | [] => m
  | op :: rest => applyOps (applyOp m op) rest

/-- Well-formedness of one store entry: the key is exactly a 2-symbol string
    over the alphabet and the value exactly a 4-symbol string over it. -/
def WFpair (p : SymStr × SymStr) : Prop :=
  p.1.length = 2 ∧ (∀ c ∈ p.1, c ∈ symbols) ∧
  p.2.length = 4 ∧ (∀ c ∈ p.2, c ∈ symbols)

/-- Well-formedness of the whole store. -/
def EStore.WF (m : Mem) : Prop := ∀ p ∈ m, WFpair p

/-- The exception class of a failed execution step, if it failed. -/
def errClass? (r : Except RMError State) : Option String :=
  match r with
  | .error e => some e.cls
  | .ok _ => none

/-- The exception message of a failed execution step, if it failed. -/
def errMsg? (r : Except RMError State) : Option String :=
  match r with
  | .error e => some e.msg
  | .ok _ => none

/-- The accumulator after a successful execution step. -/
def accOf? (r : Except RMError State) : Option Int :=
  match r with
  | .error _ => none
  | .ok st => some st.A

/-- The electronic store after a successful execution step. -/
def storeOf? (r : Except RMError State) : Option Mem :=
  match r with
  | .error _ => none
  | .ok st => some st.e_store

/-! ### Codec lemmas -/

/-- Any two sufficient fuels give the same digit string. -/
theorem digitsGo_congr : ∀ {f₁ f₂ n : Nat}, n ≤ f₁ → n ≤ f₂ →
    digitsGo f₁ n = digitsGo f₂ n := by
  intro f₁
  induction f₁ with
  | zero =>
    intro f₂ n h₁ _
    have hn : n = 0 := Nat.le_zero.mp h₁
    subst hn
    cases f₂ <;> simp [digitsGo]
  | succ f ih =>
    intro f₂ n h₁ h₂
    by_cases hn : n = 0
    · subst hn
      cases f₂ <;> simp [digitsGo]
    · cases f₂ with
      | zero => omega
      | succ g =>
        simp only [digitsGo, if_neg hn]
        have hlt : n / 32 < n := Nat.div_lt_self (by omega) (by decide)
        exact congrArg _ (ih (by omega) (by omega))

/-- The defining unfolding of the digit loop. -/
theorem digitsLSB_eq (n : Nat) :
    digitsLSB n =
      if n = 0 then [] else symbols.getD (n % 32) '/' :: digitsLSB (n / 32) := by
  by_cases hn : n = 0
  · subst hn; simp [digitsLSB, digitsGo]
  · obtain ⟨m, rfl⟩ : ∃ m, n = m + 1 := ⟨n - 1, by omega⟩
    simp only [digitsLSB, digitsGo, if_neg hn]
    refine congrArg _ (digitsGo_congr ?_ le_rfl)
    have : (m + 1) / 32 < m + 1 := Nat.div_lt_self (by omega) (by decide)
    omega

/-- Every indexed lookup into the alphabet yields an alphabet symbol. -/
theorem mem_getD_symbols (i : Nat) : symbols.getD i '/' ∈ symbols := by
  rcases Nat.lt_or_ge i symbols.length with h | h
  · rw [List.getD_eq_getElem _ _ h]
    exact List.getElem_mem h
  · rw [List.getD_eq_default _ _ h]
    decide

/-- A symbol's index is below 32. -/
theorem indexOf_symbols_lt (c : Char) (h : c ∈ symbols) : symbols.indexOf c < 32 := by
  have h' := List.indexOf_lt_length.mpr h
  simpa [symbols] using h'

/-- Looking a symbol's index back up returns the symbol. -/
theorem getD_indexOf_symbols {c : Char} (h : c ∈ symbols) :
    symbols.getD (symbols.indexOf c) '/' = c := by
  have hlt : symbols.indexOf c < symbols.length := List.indexOf_lt_length.mpr h
  rw [List.getD_eq_getElem _ _ hlt]
  exact List.getElem_indexOf hlt

/-- The index of the `i`-th symbol is `i` (the alphabet has no duplicates). -/
theorem indexOf_getD_symbols {i : Nat} (h : i < 32) :
    symbols.indexOf (symbols.getD i '/') = i := by
  have hlen : i < symbols.length := by simpa [symbols] using h
  rw [List.getD_eq_getElem _ _ hlen]
  exact List.indexOf_getElem (by decide) i hlen

/-- Decoding the digit string of `n` gives back `n`. -/
theorem symbols_to_int_digitsLSB (n : Nat) : symbols_to_int (digitsLSB n) = n := by
  induction n using Nat.strong_induction_on with
  | _ n ih =>
    rw [digitsLSB_eq]
    by_cases hn : n = 0
    · simp [hn, symbols_to_int]
    · simp only [if_neg hn, symbols_to_int]
      rw [indexOf_getD_symbols (Nat.mod_lt n (by decide)),
        ih (n / 32) (Nat.div_lt_self (by omega) (by decide))]
      omega

/-- A value below `32 ^ k` needs at most `k` digits. -/
theorem digitsLSB_length_le {n k : Nat} (h : n < 32 ^ k) : (digitsLSB n).length ≤ k := by
  induction k generalizing n with
  | zero =>
    have hn : n = 0 := by simpa using h
    subst hn
    simp [digitsLSB, digitsGo]
  | succ k ih =>
    rw [digitsLSB_eq]
    by_cases hn : n = 0
    · simp [hn]
    · simp only [if_neg hn, List.length_cons]
      have hdiv : n / 32 < 32 ^ k := by
        rw [Nat.div_lt_iff_lt_mul (by decide)]
        calc n < 32 ^ (k + 1) := h
          _ = 32 ^ k * 32 := by ring
      exact Nat.succ_le_succ (ih hdiv)

/-- Digit strings use only alphabet symbols. -/
theorem mem_digitsLSB : ∀ (n : Nat), ∀ c ∈ digitsLSB n, c ∈ symbols := by
  intro n
  induction n using Nat.strong_induction_on with
  | _ n ih =>
    intro c hc
    rw [digitsLSB_eq] at hc
    by_cases hn : n = 0
    · simp [hn] at hc
    · simp only [if_neg hn, List.mem_cons] at hc
      rcases hc with hc | hc
      · exact hc ▸ mem_getD_symbols _
      · exact ih (n / 32) (Nat.div_lt_self (by omega) (by decide)) c hc

/-- Decoding a concatenation: positional base-32 semantics. -/
theorem symbols_to_int_append (a b : SymStr) :
    symbols_to_int (a ++ b) = symbols_to_int a + 32 ^ a.length * symbols_to_int b := by
  induction a with
  | nil => simp [symbols_to_int]
  | cons c t ih =>
    have hstep : symbols_to_int ((c :: t) ++ b) =
        symbols.indexOf c + 32 * symbols_to_int (t ++ b) := rfl
    have hstep2 : symbols_to_int (c :: t) =
        symbols.indexOf c + 32 * symbols_to_int t := rfl
    rw [hstep, ih, hstep2, List.length_cons]
    ring

/-- A run of zero symbols decodes to 0. -/
theorem symbols_to_int_replicate (k : Nat) :
    symbols_to_int (List.replicate k '/') = 0 := by
  induction k with
  | zero => rfl
  | succ k ih =>
    rw [List.replicate_succ]
    simp only [symbols_to_int, ih]
    decide

/-- Zero-padding does not change the decoded value. -/
theorem symbols_to_int_ljust (l : SymStr) (size : Nat) :
    symbols_to_int (ljust l size '/') = symbols_to_int l := by
  unfold ljust
  rw [symbols_to_int_append, symbols_to_int_replicate]
  ring

/-- Decoding any encoding returns the value reduced modulo `2 ^ 20`,
    no matter the requested width. -/
theorem symbols_to_int_int_to_symbols (n : Int) (w : Nat) :
    symbols_to_int (int_to_symbols n w) = (n % (2 ^ 20 : Int)).toNat := by
  unfold int_to_symbols
  rw [symbols_to_int_ljust, symbols_to_int_digitsLSB]

/-- A well-formed string of length `k` decodes below `32 ^ k`. -/
theorem symbols_to_int_lt {s : SymStr} (h : ∀ c ∈ s, c ∈ symbols) :
    symbols_to_int s < 32 ^ s.length := by
  induction s with
  | nil => simp [symbols_to_int]
  | cons c t ih =>
    simp only [symbols_to_int, List.length_cons, pow_succ]
    have h1 : symbols.indexOf c < 32 := indexOf_symbols_lt c (h c (by simp))
    have h2 : symbols_to_int t < 32 ^ t.length := ih (fun x hx => h x (by simp [hx]))
    calc symbols.indexOf c + 32 * symbols_to_int t
        < 32 * (symbols_to_int t + 1) := by omega
      _ ≤ 32 * 32 ^ t.length := Nat.mul_le_mul_left 32 h2
      _ = 32 ^ t.length * 32 := by ring

/-- Padding distributes over a leading symbol. -/
theorem ljust_cons (c : Char) (l : List Char) (n : Nat) (x : Char) :
    ljust (c :: l) (n + 1) x = c :: ljust l n x := by
  simp [ljust, List.length_cons, Nat.succ_sub_succ]

/-- Padded length: `ljust` pads but never truncates. -/
theorem ljust_length (l : List Char) (n : Nat) (x : Char) :
    (ljust l n x).length = max n l.length := by
  simp [ljust, List.length_append, List.length_replicate]
  omega

/-- Re-encoding the decoded value at the original length restores a
    well-formed string. -/
theorem ljust_digitsLSB_symbols_to_int {s : SymStr} (h : ∀ c ∈ s, c ∈ symbols) :
    ljust (digitsLSB (symbols_to_int s)) s.length '/' = s := by
  induction s with
  | nil => rfl
  | cons c t ih =>
    have hc : c ∈ symbols := h c (by simp)
    have ht : ∀ x ∈ t, x ∈ symbols := fun x hx => h x (by simp [hx])
    have hidx : symbols.indexOf c < 32 := indexOf_symbols_lt c hc
    by_cases hv : symbols_to_int (c :: t) = 0
    · have hizero : symbols.indexOf c = 0 ∧ symbols_to_int t = 0 := by
        simp only [symbols_to_int] at hv
        omega
      have hcslash : c = '/' := by
        have hback := getD_indexOf_symbols hc
        rw [hizero.1] at hback
        exact hback.symm
      have ht' := ih ht
      rw [hizero.2] at ht'
      have hrep : List.replicate t.length '/' = t := by
        simpa [digitsLSB, digitsGo, ljust] using ht'
      rw [hv]
      simp only [digitsLSB, digitsGo, ljust, List.nil_append, List.length_nil,
        List.length_cons, Nat.sub_zero]
      rw [List.replicate_succ, hrep, hcslash]
    · have hmod : symbols_to_int (c :: t) % 32 = symbols.indexOf c := by
        simp only [symbols_to_int]
        omega
      have hdiv : symbols_to_int (c :: t) / 32 = symbols_to_int t := by
        simp only [symbols_to_int]
        omega
      rw [digitsLSB_eq, if_neg hv, hmod, hdiv, getD_indexOf_symbols hc,
        List.length_cons, ljust_cons]
      exact congrArg _ (ih ht)

/-- Encoding a 20-bit value: the internal modulus reduction is the identity. -/
theorem int_to_symbols_coe_lt {n : Nat} (h : n < 2 ^ 20) (w : Nat) :
    int_to_symbols (n : Int) w = ljust (digitsLSB n) w '/' := by
  unfold int_to_symbols
  have hmod : ((n : Int) % (2 ^ 20 : Int)) = (n : Int) :=
    Int.emod_eq_of_lt (by positivity) (by exact_mod_cast h)
  rw [hmod, Int.toNat_natCast]

/-! ### Claim C1: halting-loop termination -/

/-- C1 counterexample: the one-line program whose unconditional branch
    targets its own address (address 0, branch target 0), started from the
    initial state, does NOT terminate by halting-loop detection: the first
    cycle moves the counter from 1023 to 0, so the detection comparison
    fails, and the second cycle fetches the all-zero line at address 1 and
    raises `InvalidInstructionError`. -/
theorem spec_C1_counterexample :
    (EStore.load [] [(['/', '/'], ['/', '/', '/', 'P'])]).toOption = some selfBranchMem ∧
    (ReducedMachine.run selfBranchMem 0 10).loopCycles? = none ∧
    (ReducedMachine.run selfBranchMem 0 10).error? =
      some ⟨"InvalidInstructionError", "Instruction //// does not exist!"⟩ := by
  decide

/-- C1 amended: halting-loop detection compares the pre-fetch counter to the
    post-execute counter, and the fetch increments first; so the loop idiom
    the engine detects is a branch whose target is its own address minus one.
    The two-line program with an unconditional branch at address 0 whose
    operand line holds 1023 (the initial counter, the branch's own address
    minus one mod 1024) halts by loop detection after exactly one executed
    cycle with the accumulator still 0. -/
theorem spec_C1 :
    (EStore.load []
        [(['/', '/'], ['E', '/', '/', 'P']), (['E', '/'], ['£', '£', '/', '/'])]).toOption =
      some loopTo1023Mem ∧
    (ReducedMachine.run loopTo1023Mem 0 10).loopCycles? = some 1 ∧
    (ReducedMachine.run loopTo1023Mem 0 10).finalA? = some 0 := by
  decide

/-! ### Claim C2: add and subtract -/

/-- C2 counterexample: executing add (`TI`) in a state with accumulator
    `2^40 - 1` and operand value 1 leaves the accumulator at `2^40`, whereas
    the claim predicts `(2^40 - 1 + 1) mod 2^40 = 0` and an accumulator
    inside `[0, 2^40)`: the modulus is applied to the operand only, never to
    the updated accumulator. -/
theorem spec_C2_counterexample :
    accOf? (ReducedMachine.applyInstruction stAddOverflow) = some ((2 : Int) ^ 40) ∧
    (2 : Int) ^ 40 ≠ (((2 : Int) ^ 40 - 1) + 1) % 2 ^ 40 ∧
    ¬((2 : Int) ^ 40 < 2 ^ 40) := by
  refine ⟨by decide, by decide, by omega⟩

/-! ### Claim C3: store then load -/

/-- C3 counterexample: storing accumulator `V = 2^20` to address 2 and
    loading the same address back yields accumulator 0, not
    `V mod 2^40 = 2^20`: the codec reduces every encoding modulo `2^20`, so
    the store discards the accumulator's upper 20 bits. -/
theorem spec_C3_counterexample :
    storeLoadScenario (2 ^ 20) = some 0 ∧
    (0 : Int) ≠ 2 ^ 20 % 2 ^ 40 := by
  refine ⟨by decide, by decide⟩

/-! ### Claim C4: codec round-trip laws -/

/-- C4 counterexample: the string-side round-trip law fails for well-formed
    strings longer than one line: `s = "////E"` has every character in the
    alphabet, but `encode(decode(s), 5)` returns `"/////"`, because
    `decode(s) = 2^20` is reduced to 0 by the encoder's fixed modulus. -/
theorem spec_C4_counterexample :
    (['/', '/', '/', '/', 'E'].all fun c => decide (c ∈ symbols)) = true ∧
    symbols_to_int ['/', '/', '/', '/', 'E'] = 2 ^ 20 ∧
    int_to_symbols ((symbols_to_int ['/', '/', '/', '/', 'E'] : Nat) : Int) 5 =
      ['/', '/', '/', '/', '/'] ∧
    ['/', '/', '/', '/', '/'] ≠ ['/', '/', '/', '/', 'E'] := by
  decide

/-! ### Claim C5: encode width and truncation -/

/-- C5 counterexample: `encode(1024, 2)` returns the 3-symbol string `//E`,
    not a string of exactly 2 symbols: `ljust` pads but never truncates, so
    no high-order symbols are ever dropped. -/
theorem spec_C5_counterexample :
    int_to_symbols 1024 2 = ['/', '/', 'E'] ∧
    (int_to_symbols 1024 2).length = 3 ∧ 3 ≠ 2 := by
  decide

/-- C5 amended: `encode(n, w)` reduces `n` modulo `2^20`, emits its base-32
    digits least-significant first, and right-pads with the zero symbol to
    `w` symbols; the result has length `max w d` where `d` is the digit
    count of the reduced value, begins with exactly those digits, and always
    decodes to the full reduced value — nothing is truncated, even when the
    reduced value needs more than `w` symbols. -/
theorem spec_C5 (n : Int) (w : Nat) :
    (int_to_symbols n w).length =
      max w (digitsLSB (n % (2 ^ 20 : Int)).toNat).length ∧
    (int_to_symbols n w).take (digitsLSB (n % (2 ^ 20 : Int)).toNat).length =
      digitsLSB (n % (2 ^ 20 : Int)).toNat ∧
    symbols_to_int (int_to_symbols n w) = (n % (2 ^ 20 : Int)).toNat := by
  refine ⟨ljust_length _ _ _, ?_, symbols_to_int_int_to_symbols n w⟩
  unfold int_to_symbols ljust
  exact List.take_left _ _

/-! ### Claim C7: negate versus unrecognized instruction -/

/-- C7 counterexample: executing negate (`TF`) and executing an unrecognized
    function code (`//`) raise exceptions of the SAME class,
    `InvalidInstructionError`; the two terminal conditions are not distinct
    exception types. -/
theorem spec_C7_counterexample :
    errClass? (ReducedMachine.applyInstruction stNegate) =
      some "InvalidInstructionError" ∧
    errClass? (ReducedMachine.applyInstruction stUnrecognized) =
      some "InvalidInstructionError" := by
  decide

/-- C7 amended: negate is a fatal condition, but it is raised as the same
    `InvalidInstructionError` class as an unrecognized function code; the
    two are distinguishable only by their message texts ("TF currently
    unimplemented" versus the "Instruction ... does not exist!" text). -/
theorem spec_C7 :
    errClass? (ReducedMachine.applyInstruction stNegate) =
      errClass? (ReducedMachine.applyInstruction stUnrecognized) ∧
    errMsg? (ReducedMachine.applyInstruction stNegate) =
      some "TF currently unimplemented" ∧
    errMsg? (ReducedMachine.applyInstruction stUnrecognized) =
      some "Instruction //// does not exist!" ∧
    errMsg? (ReducedMachine.applyInstruction stNegate) ≠
      errMsg? (ReducedMachine.applyInstruction stUnrecognized) := by
  decide

/-! ### Claim C8: the no-op's frame -/

/-- C8 counterexample: executing the no-op `T£` over an empty store succeeds
    and leaves the accumulator, counter and instruction register unchanged,
    but the operand pre-fetch shared by all instructions materialises the two
    operand lines: the dump grows from 0 to 2 entries, so the store is not
    identical before and after the execute phase. -/
theorem spec_C8_counterexample :
    (ReducedMachine.applyInstruction stNoop).toOption.map
        (fun s => (s.A, s.C, s.S)) = some (7, 5, 1032192) ∧
    storeOf? (ReducedMachine.applyInstruction stNoop) =
      some [(['/', '/'], ['/', '/', '/', '/']), (['E', '/'], ['/', '/', '/', '/'])] ∧
    (EStore.dump stNoop.e_store).length = 0 ∧
    (ReducedMachine.applyInstruction stNoop).toOption.map
        (fun s => (EStore.dump s.e_store).length) = some 2 ∧
    (2 : Nat) ≠ 0 := by
  decide

/-- C2 amended: add (`TI`) sets the accumulator to
    `A + (s_pair_data mod 2^40)` and subtract (`TN`) to
    `A - (s_pair_data mod 2^40)`: the modulus is applied to the operand
    only, the updated accumulator is not reduced (and may leave
    `[0, 2^40)` in either direction). -/
theorem spec_C2 (st : State) (sd sp : Nat) (m1 m2 : Mem)
    (h1 : EStore.getInt st.e_store (st.S % 1024) 1 = .ok (sd, m1))
    (h2 : EStore.getInt m1 (st.S % 1024) 2 = .ok (sp, m2)) :
    ((int_to_symbols (st.S : Int) 4).drop 2 = ['T', 'I'] →
      ReducedMachine.applyInstruction st =
        .ok { st with e_store := m2, A := st.A + ((sp % 2 ^ 40 : Nat) : Int) }) ∧
    ((int_to_symbols (st.S : Int) 4).drop 2 = ['T', 'N'] →
      ReducedMachine.applyInstruction st =
        .ok { st with e_store := m2, A := st.A - ((sp % 2 ^ 40 : Nat) : Int) }) := by
  unfold ReducedMachine.applyInstruction
  rw [h1]
  dsimp only
  rw [h2]
  dsimp only
  constructor <;> intro hf <;> simp [hf]

/-- C2 witness: adding operand 1 to accumulator 5 via `TI`. -/
theorem spec_C2_witness :
    ReducedMachine.applyInstruction stAddDemo =
      .ok { stAddDemo with
        e_store := memAddDemo2
        A := stAddDemo.A + ((1 % 2 ^ 40 : Nat) : Int) } :=
  (spec_C2 stAddDemo 1 1 memAddDemo1 memAddDemo2 rfl rfl).1 rfl

/-- C4 amended: the numeric round trip holds as claimed, and the string
    round trip holds for well-formed strings of at most one line
    (4 symbols, so that the decoded value stays below the encoder's fixed
    `2^20` modulus); it fails for longer well-formed strings. -/
theorem spec_C4 :
    (∀ (n w : Nat), n < 2 ^ 20 → n < 32 ^ w →
      symbols_to_int (int_to_symbols (n : Int) w) = n) ∧
    (∀ s : SymStr, (∀ c ∈ s, c ∈ symbols) → s.length ≤ 4 →
      int_to_symbols ((symbols_to_int s : Nat) : Int) s.length = s) := by
  constructor
  · intro n w hn _
    rw [symbols_to_int_int_to_symbols]
    rw [Int.emod_eq_of_lt (by positivity) (by exact_mod_cast hn), Int.toNat_natCast]
  · intro s hs hlen
    have hv : symbols_to_int s < 2 ^ 20 := by
      calc symbols_to_int s < 32 ^ s.length := symbols_to_int_lt hs
        _ ≤ 32 ^ 4 := Nat.pow_le_pow_right (by decide) hlen
        _ = 2 ^ 20 := by decide
    rw [int_to_symbols_coe_lt hv]
    exact ljust_digitsLSB_symbols_to_int hs

/-- C4 witness: both round-trip laws at concrete inputs. -/
theorem spec_C4_witness :
    symbols_to_int (int_to_symbols ((5 : Nat) : Int) 2) = 5 ∧
    int_to_symbols ((symbols_to_int ['E', '@'] : Nat) : Int) 2 = ['E', '@'] :=
  ⟨spec_C4.1 5 2 (by decide) (by decide),
   spec_C4.2 ['E', '@'] (by decide) (by decide)⟩

/-- C8 amended: the no-op (`T£`) leaves the accumulator, the instruction
    register and the program counter exactly unchanged, but its store is the
    one produced by the operand pre-fetch common to every instruction, which
    may have materialised the two operand lines at `S mod 1024` and
    `S mod 1024 + 1` as default zero lines (growing the dump). -/
theorem spec_C8 (st : State) (sd sp : Nat) (m1 m2 : Mem)
    (h1 : EStore.getInt st.e_store (st.S % 1024) 1 = .ok (sd, m1))
    (h2 : EStore.getInt m1 (st.S % 1024) 2 = .ok (sp, m2))
    (hf : (int_to_symbols (st.S : Int) 4).drop 2 = ['T', '£']) :
    ReducedMachine.applyInstruction st = .ok { st with e_store := m2 } := by
  unfold ReducedMachine.applyInstruction
  rw [h1]
  dsimp only
  rw [h2]
  dsimp only
  simp [hf]

/-- C8 witness: the no-op over the empty store keeps `A`, `C`, `S` and ends
    with exactly the operand-materialised store. -/
theorem spec_C8_witness :
    ReducedMachine.applyInstruction stNoop = .ok { stNoop with e_store := memNoop2 } :=
  spec_C8 stNoop 0 0 memNoop1 memNoop2 rfl rfl rfl

/-! ### Store lemmas -/

/-- `EStore.valid` unfolded to its two conditions. -/
theorem valid_eq_true_iff (v : SymStr) (L : Nat) :
    EStore.valid v L = true ↔ v.length ≤ L ∧ ∀ c ∈ v, c ∈ symbols := by
  simp [EStore.valid, List.all_eq_true]

/-- `set` succeeds exactly when both fields validate. -/
theorem set_isOk (m : Mem) (loc val : SymStr) :
    (EStore.set m loc val).isOk = (EStore.valid loc 2 && EStore.valid val 8) := by
  unfold EStore.set
  by_cases hl : EStore.valid loc 2 <;> by_cases hv : EStore.valid val 8 <;>
    simp [hl, hv, Except.isOk, Except.toBool]

/-- Looking up a just-written key returns the written value. -/
theorem dictGet?_dictInsert_self (m : Mem) (k v : SymStr) :
    dictGet? (dictInsert m k v) k = some v := by
  induction m with
  | nil => simp [dictInsert, dictGet?]
  | cons p rest ih =>
    by_cases h : p.1 = k
    · simp [dictInsert, dictGet?, h]
    · simp [dictInsert, dictGet?, h, ih]

/-- A well-formed 2-symbol address decodes below 1024. -/
theorem symbols_to_int_short {loc : SymStr} (hlen : loc.length = 2)
    (hval : ∀ c ∈ loc, c ∈ symbols) : symbols_to_int loc < 1024 := by
  have h := symbols_to_int_lt hval
  rw [hlen] at h
  exact lt_of_lt_of_le h (by norm_num)

/-- Re-encoding a decoded well-formed 2-symbol address restores it. -/
theorem addr_roundtrip {loc : SymStr} (hlen : loc.length = 2)
    (hval : ∀ c ∈ loc, c ∈ symbols) :
    int_to_symbols ((symbols_to_int loc : Nat) : Int) 2 = loc := by
  have hv : symbols_to_int loc < 2 ^ 20 :=
    lt_of_lt_of_le (symbols_to_int_short hlen hval) (by norm_num)
  rw [int_to_symbols_coe_lt hv, ← hlen]
  exact ljust_digitsLSB_symbols_to_int hval

/-- Reading one line at a fresh address materialises the zero line. -/
theorem getLines_one_fresh (m : Mem) (v : Nat) (k : SymStr)
    (hk : int_to_symbols ((v % 1024 : Nat) : Int) 2 = k)
    (hfresh : dictGet? m k = none) :
    EStore.getLines m v 1 = (['/', '/', '/', '/'], dictInsert m k ['/', '/', '/', '/']) := by
  show EStore.getLines m v (0 + 1) = _
  unfold EStore.getLines
  dsimp only
  rw [hk, hfresh]
  dsimp only
  rw [dictGet?_dictInsert_self]
  simp [EStore.getLines]

/-- Reading one line at a materialised address returns it, store unchanged. -/
theorem getLines_one_present (m : Mem) (v : Nat) (k val : SymStr)
    (hk : int_to_symbols ((v % 1024 : Nat) : Int) 2 = k)
    (hpresent : dictGet? m k = some val) :
    EStore.getLines m v 1 = (val, m) := by
  show EStore.getLines m v (0 + 1) = _
  unfold EStore.getLines
  dsimp only
  rw [hk, hpresent]
  dsimp only
  rw [hpresent]
  simp [EStore.getLines]

/-! ### Claim C6: set validation and no partial writes -/

/-- C6: `set` raises exactly when the address exceeds 2 symbols, the value
    exceeds 8 symbols, or either contains a character outside the alphabet;
    and when it raises, the memory is left untouched (validation precedes
    every write). -/
theorem spec_C6 (m : Mem) (loc val : SymStr) :
    ((EStore.set m loc val).isOk = false ↔
      2 < loc.length ∨ ¬(∀ c ∈ loc, c ∈ symbols) ∨
      8 < val.length ∨ ¬(∀ c ∈ val, c ∈ symbols)) ∧
    ((EStore.set m loc val).isOk = false → applyOp m (Op.setOp loc val) = m) := by
  constructor
  · rw [set_isOk]
    have hb : (EStore.valid loc 2 && EStore.valid val 8) = false ↔
        ¬(EStore.valid loc 2 = true ∧ EStore.valid val 8 = true) := by
      cases EStore.valid loc 2 <;> cases EStore.valid val 8 <;> simp
    rw [hb, valid_eq_true_iff, valid_eq_true_iff]
    simp only [not_and_or, not_le]
    tauto
  · intro h
    cases hset : EStore.set m loc val with
    | ok m' => rw [hset] at h; simp [Except.isOk, Except.toBool] at h
    | error e => simp [applyOp, hset]

/-- C6 witness: a 3-symbol address is rejected and writes nothing. -/
theorem spec_C6_witness :
    (EStore.set [] ['/', 'E', '@'] ['E']).isOk = false ∧
    applyOp [] (Op.setOp ['/', 'E', '@'] ['E']) = [] := by
  have h := spec_C6 [] ['/', 'E', '@'] ['E']
  have hfalse : (EStore.set [] ['/', 'E', '@'] ['E']).isOk = false :=
    h.1.mpr (Or.inl (by decide))
  exact ⟨hfalse, h.2 hfalse⟩

/-! ### Claim C9: default fill and persistence -/

/-- C9: reading a never-written 2-symbol address returns the all-zero-symbol
    line and persists it; a second read of the same address returns the
    identical line and leaves the store exactly as after the first read. -/
theorem spec_C9 (m : Mem) (loc : SymStr) (hlen : loc.length = 2)
    (hval : ∀ c ∈ loc, c ∈ symbols) (hfresh : dictGet? m loc = none) :
    EStore.get m loc 1 =
      .ok (['/', '/', '/', '/'], dictInsert m loc ['/', '/', '/', '/']) ∧
    EStore.get (dictInsert m loc ['/', '/', '/', '/']) loc 1 =
      .ok (['/', '/', '/', '/'], dictInsert m loc ['/', '/', '/', '/']) := by
  have hvalid : EStore.valid loc 2 = true :=
    (valid_eq_true_iff loc 2).mpr ⟨by omega, hval⟩
  have hmod : symbols_to_int loc % 1024 = symbols_to_int loc :=
    Nat.mod_eq_of_lt (symbols_to_int_short hlen hval)
  have hkey : int_to_symbols ((symbols_to_int loc % 1024 : Nat) : Int) 2 = loc := by
    rw [hmod]
    exact addr_roundtrip hlen hval
  constructor
  · unfold EStore.get
    rw [hvalid]
    simp only [if_true, le_refl]
    rw [getLines_one_fresh m (symbols_to_int loc) loc hkey hfresh]
  · unfold EStore.get
    rw [hvalid]
    simp only [if_true, le_refl]
    rw [getLines_one_present _ (symbols_to_int loc) loc _ hkey
      (dictGet?_dictInsert_self m loc _)]

/-- C9 witness: default fill at address `@A` over a one-entry store. -/
theorem spec_C9_witness :
    EStore.get [(['E', '/'], ['A', 'A', 'A', 'A'])] ['@', 'A'] 1 =
      .ok (['/', '/', '/', '/'],
        dictInsert [(['E', '/'], ['A', 'A', 'A', 'A'])] ['@', 'A']
          ['/', '/', '/', '/']) ∧
    EStore.get
        (dictInsert [(['E', '/'], ['A', 'A', 'A', 'A'])] ['@', 'A']
          ['/', '/', '/', '/']) ['@', 'A'] 1 =
      .ok (['/', '/', '/', '/'],
        dictInsert [(['E', '/'], ['A', 'A', 'A', 'A'])] ['@', 'A']
          ['/', '/', '/', '/']) :=
  spec_C9 _ _ rfl (by decide) rfl

/-! ### Claim C10: store well-formedness invariant -/

/-- Inserting a well-formed pair preserves store well-formedness. -/
theorem WF_dictInsert {m : Mem} {k v : SymStr} (hm : EStore.WF m)
    (hp : WFpair (k, v)) : EStore.WF (dictInsert m k v) := by
  induction m with
  | nil =>
    intro p hmem
    simp [dictInsert] at hmem
    rw [hmem]
    exact hp
  | cons q rest ih =>
    intro p hmem
    by_cases h : q.1 = k
    · simp only [dictInsert, if_pos h, List.mem_cons] at hmem
      rcases hmem with h1 | h1
      · rw [h1]; exact hp
      · exact hm p (by simp [h1])
    · simp only [dictInsert, if_neg h, List.mem_cons] at hmem
      rcases hmem with h1 | h1
      · exact hm p (by simp [h1])
      · exact ih (fun r hr => hm r (by simp [hr])) p h1

/-- The 2-symbol encoding of an address below 1024 is a well-formed key. -/
theorem shortAddr_wf (a : Nat) (h : a < 1024) :
    (int_to_symbols ((a : Nat) : Int) 2).length = 2 ∧
    ∀ c ∈ int_to_symbols ((a : Nat) : Int) 2, c ∈ symbols := by
  have h20 : a < 2 ^ 20 := lt_of_lt_of_le h (by norm_num)
  rw [int_to_symbols_coe_lt h20]
  constructor
  · rw [ljust_length]
    have hd : (digitsLSB a).length ≤ 2 :=
      digitsLSB_length_le (lt_of_lt_of_le h (by norm_num))
    omega
  · intro c hc
    unfold ljust at hc
    rcases List.mem_append.mp hc with hc | hc
    · exact mem_digitsLSB a c hc
    · rw [List.eq_of_mem_replicate hc]
      decide

/-- The read loop only ever inserts well-formed default lines. -/
theorem getLines_WF : ∀ (lines : Nat) (m : Mem) (base : Nat), EStore.WF m →
    EStore.WF (EStore.getLines m base lines).2 := by
  intro lines
  induction lines with
  | zero =>
    intro m base hm
    simpa [EStore.getLines] using hm
  | succ k ih =>
    intro m base hm
    unfold EStore.getLines
    dsimp only
    cases hlook : dictGet? m (int_to_symbols (((base % 1024 : Nat) : Nat) : Int) 2) with
    | some v =>
      exact ih m (base + 1) hm
    | none =>
      refine ih _ (base + 1) (WF_dictInsert hm ?_)
      have hw := shortAddr_wf (base % 1024) (Nat.mod_lt _ (by decide))
      have hz1 : (['/', '/', '/', '/'] : SymStr).length = 4 := by decide
      have hz2 : ∀ c ∈ (['/', '/', '/', '/'] : SymStr), c ∈ symbols := by decide
      exact ⟨hw.1, hw.2, hz1, hz2⟩

/-- The write loop preserves well-formedness when every chunk is at most a
    line of alphabet symbols. -/
theorem setChunks_WF : ∀ (chunks : List SymStr) (m : Mem) (i loc_int : Nat),
    EStore.WF m → (∀ v ∈ chunks, v.length ≤ 4 ∧ ∀ c ∈ v, c ∈ symbols) →
    EStore.WF (EStore.setChunks loc_int m i chunks) := by
  intro chunks
  induction chunks with
  | nil =>
    intro m i l hm _
    simpa [EStore.setChunks] using hm
  | cons v rest ih =>
    intro m i l hm hv
    unfold EStore.setChunks
    apply ih
    · apply WF_dictInsert hm
      have hw := shortAddr_wf ((l + i) % 1024) (Nat.mod_lt _ (by decide))
      refine ⟨hw.1, hw.2, ?_, ?_⟩
      · rw [ljust_length]
        have := (hv v (by simp)).1
        omega
      · intro c hc
        unfold ljust at hc
        rcases List.mem_append.mp hc with hc | hc
        · exact (hv v (by simp)).2 c hc
        · rw [List.eq_of_mem_replicate hc]
          decide
    · intro w hw'
      exact hv w (by simp [hw'])

/-- Every chunk `textwrap.wrap` produces is at most 4 symbols drawn from the
    original string. -/
theorem wrap4_mem : ∀ (l : SymStr), ∀ v ∈ wrap4 l, v.length ≤ 4 ∧ ∀ c ∈ v, c ∈ l := by
  intro l
  induction l using wrap4.induct with
  | case1 => intro v hv; simp [wrap4] at hv
  | case2 a =>
    intro v hv
    simp [wrap4] at hv
    subst hv
    exact ⟨by simp, by intro c hc; simpa using hc⟩
  | case3 a b =>
    intro v hv
    simp [wrap4] at hv
    subst hv
    exact ⟨by simp, by intro c hc; simpa using hc⟩
  | case4 a b c =>
    intro v hv
    simp [wrap4] at hv
    subst hv
    exact ⟨by simp, by intro x hx; simpa using hx⟩
  | case5 a b c d rest ih =>
    intro v hv
    simp only [wrap4, List.mem_cons] at hv
    rcases hv with hv | hv
    · subst hv
      refine ⟨by simp, ?_⟩
      intro x hx
      simp at hx
      rcases hx with h | h | h | h <;> simp [h]
    · have := ih v hv
      exact ⟨this.1, fun x hx => by
        have hmem := this.2 x hx
        simp [hmem]⟩

/-- A successful `set` preserves well-formedness. -/
theorem set_WF {m m' : Mem} {loc val : SymStr} (hm : EStore.WF m)
    (h : EStore.set m loc val = .ok m') : EStore.WF m' := by
  unfold EStore.set at h
  by_cases hl : EStore.valid loc 2
  · rw [if_pos hl] at h
    by_cases hv : EStore.valid val 8
    · rw [if_pos hv] at h
      simp only [Except.ok.injEq] at h
      subst h
      apply setChunks_WF _ _ _ _ hm
      intro v hv'
      have hval := (valid_eq_true_iff val 8).mp hv
      have hc := wrap4_mem val v hv'
      exact ⟨hc.1, fun c hcc => hval.2 c (hc.2 c hcc)⟩
    · rw [if_neg hv] at h
      simp at h
  · rw [if_neg hl] at h
    simp at h

/-- A successful string-mode `get` preserves well-formedness. -/
theorem get_WF {m : Mem} {loc : SymStr} {lines : Nat} {r : SymStr × Mem}
    (hm : EStore.WF m) (h : EStore.get m loc lines = .ok r) : EStore.WF r.2 := by
  unfold EStore.get at h
  by_cases hl : EStore.valid loc 2
  · rw [if_pos hl] at h
    by_cases hn : 1 ≤ lines
    · rw [if_pos hn] at h
      simp only [Except.ok.injEq] at h
      subst h
      exact getLines_WF lines m (symbols_to_int loc) hm
    · rw [if_neg hn] at h
      simp at h
  · rw [if_neg hl] at h
    simp at h

/-- A successful numeric-mode `get` preserves well-formedness. -/
theorem getInt_WF {m : Mem} {loc lines : Nat} {r : Nat × Mem}
    (hm : EStore.WF m) (h : EStore.getInt m loc lines = .ok r) : EStore.WF r.2 := by
  unfold EStore.getInt at h
  by_cases hl : EStore.valid (int_to_symbols (loc : Int) 2) 2
  · rw [if_pos hl] at h
    by_cases hn : 1 ≤ lines
    · rw [if_pos hn] at h
      simp only [Except.ok.injEq] at h
      subst h
      exact getLines_WF lines m loc hm
    · rw [if_neg hn] at h
      simp at h
  · rw [if_neg hl] at h
    simp at h

/-- Each operation preserves well-formedness. -/
theorem applyOp_WF {m : Mem} (hm : EStore.WF m) (op : Op) :
    EStore.WF (applyOp m op) := by
  cases op with
  | setOp loc val =>
    simp only [applyOp]
    cases h : EStore.set m loc val with
    | ok m' => exact set_WF hm h
    | error e => exact hm
  | getOp loc lines =>
    simp only [applyOp]
    cases h : EStore.get m loc lines with
    | ok r => exact get_WF hm h
    | error e => exact hm
  | getIntOp loc lines =>
    simp only [applyOp]
    cases h : EStore.getInt m loc lines with
    | ok r => exact getInt_WF hm h
    | error e => exact hm

/-- Preservation along a whole operation sequence. -/
theorem applyOps_WF : ∀ (ops : List Op) (m : Mem), EStore.WF m →
    EStore.WF (applyOps m ops) := by
  intro ops
  induction ops with
  | nil => intro m hm; simpa [applyOps] using hm
  | cons op rest ih =>
    intro m hm
    unfold applyOps
    exact ih _ (applyOp_WF hm op)

/-- C10: starting from the empty store, after any sequence of `set` and
    `get` operations every key in the store is exactly a 2-symbol string
    over the alphabet and every value exactly a 4-symbol string over it
    (both the chunking writer and the default-materialising reader preserve
    this). -/
theorem spec_C10 (ops : List Op) : EStore.WF (applyOps [] ops) :=
  applyOps_WF ops [] (fun p hp => absurd hp (List.not_mem_nil p))
/-! ### Claim C3 amended machinery -/

/-- Chunking an 8-symbol padded line splits it into the padded digits and a
    zero line. -/
theorem wrap4_pad : ∀ (d : SymStr), d.length ≤ 4 →
    wrap4 (d ++ List.replicate (8 - d.length) '/') =
      [d ++ List.replicate (4 - d.length) '/', List.replicate 4 '/'] := by
  intro d h
  match d with
  | [] => rfl
  | [a] => rfl
  | [a, b] => rfl
  | [a, b, c] => rfl
  | [a, b, c, e] => rfl
  | a :: b :: c :: e :: f :: rest =>
    exfalso
    simp at h

/-- Padding to a width the string already meets returns it unchanged. -/
theorem ljust_of_le (l : List Char) (n : Nat) (c : Char) (h : n ≤ l.length) :
    ljust l n c = l := by
  unfold ljust
  rw [Nat.sub_eq_zero_of_le h]
  simp

/-- The reduced accumulator value fits in a line. -/
theorem emod20_toNat_lt (A : Int) : (A % (2 ^ 20 : Int)).toNat < 2 ^ 20 := by
  omega

/-- The written line decodes back to the reduced accumulator value. -/
theorem storedLine_decode (A : Int) :
    symbols_to_int (storedLine A) = (A % (2 ^ 20 : Int)).toNat := by
  unfold storedLine
  rw [symbols_to_int_append, symbols_to_int_replicate, symbols_to_int_digitsLSB]
  ring

/-- The 8-symbol accumulator encoding always passes the store validation. -/
theorem acc_symbols_valid (A : Int) :
    EStore.valid (int_to_symbols A 8) 8 = true := by
  have hd : (digitsLSB ((A % (2 ^ 20 : Int)).toNat)).length ≤ 4 :=
    digitsLSB_length_le (lt_of_lt_of_le (emod20_toNat_lt A) (by norm_num))
  apply (valid_eq_true_iff _ _).mpr
  constructor
  · unfold int_to_symbols
    rw [ljust_length]
    omega
  · intro c hc
    unfold int_to_symbols ljust at hc
    rcases List.mem_append.mp hc with hc | hc
    · exact mem_digitsLSB _ c hc
    · rw [List.eq_of_mem_replicate hc]
      decide

/-- Storing the encoded accumulator at address 2 writes the reduced digits
    line at address 2 and a zero line at address 3. -/
theorem set_acc_eval (A : Int) :
    EStore.set [(['@', '/'], ['/', '/', '/', '/']), (['A', '/'], ['/', '/', '/', '/'])]
      ['@', '/'] (int_to_symbols A 8) =
    .ok [(['@', '/'], storedLine A), (['A', '/'], ['/', '/', '/', '/'])] := by
  have hd : (digitsLSB ((A % (2 ^ 20 : Int)).toNat)).length ≤ 4 :=
    digitsLSB_length_le (lt_of_lt_of_le (emod20_toNat_lt A) (by norm_num))
  unfold EStore.set
  rw [if_pos (show EStore.valid ['@', '/'] 2 = true from rfl),
    if_pos (acc_symbols_valid A)]
  have henc : int_to_symbols A 8 =
      digitsLSB ((A % (2 ^ 20 : Int)).toNat) ++
        List.replicate (8 - (digitsLSB ((A % (2 ^ 20 : Int)).toNat)).length) '/' := rfl
  rw [henc, wrap4_pad _ hd]
  simp only [EStore.setChunks]
  rw [show symbols_to_int ['@', '/'] = 2 from rfl]
  rw [show int_to_symbols (((2 + 0) % 1024 : Nat) : Int) 2 = ['@', '/'] from rfl]
  rw [show int_to_symbols (((2 + 1) % 1024 : Nat) : Int) 2 = ['A', '/'] from rfl]
  rw [ljust_of_le _ _ _ (by simp [List.length_append, List.length_replicate]; omega)]
  rw [ljust_of_le _ _ _ (by simp)]
  simp [dictInsert, storedLine]

/-- Dispatch of the store instruction `/S`: write the accumulator encoding
    at the line-pair address and set `S` to the reduced accumulator. -/
theorem applyInstruction_store (st : State) (sd sp : Nat) (m1 m2 m3 : Mem)
    (h1 : EStore.getInt st.e_store (st.S % 1024) 1 = .ok (sd, m1))
    (h2 : EStore.getInt m1 (st.S % 1024) 2 = .ok (sp, m2))
    (hf : (int_to_symbols (st.S : Int) 4).drop 2 = ['/', 'S'])
    (hset : EStore.set m2 ((int_to_symbols (st.S : Int) 4).take 2)
      (int_to_symbols st.A 8) = .ok m3) :
    ReducedMachine.applyInstruction st =
      .ok { st with e_store := m3, S := (st.A % (2 : Int) ^ 20).toNat } := by
  unfold ReducedMachine.applyInstruction
  rw [h1]
  dsimp only
  rw [h2]
  dsimp only
  simp [hf, hset]

/-- Dispatch of the load instruction `T/`: the accumulator becomes the
    two-line operand reduced modulo `2^40`. -/
theorem applyInstruction_load (st : State) (sd sp : Nat) (m1 m2 : Mem)
    (h1 : EStore.getInt st.e_store (st.S % 1024) 1 = .ok (sd, m1))
    (h2 : EStore.getInt m1 (st.S % 1024) 2 = .ok (sp, m2))
    (hf : (int_to_symbols (st.S : Int) 4).drop 2 = ['T', '/']) :
    ReducedMachine.applyInstruction st =
      .ok { st with e_store := m2, A := ((sp % 2 ^ 40 : Nat) : Int) } := by
  unfold ReducedMachine.applyInstruction
  rw [h1]
  dsimp only
  rw [h2]
  dsimp only
  simp [hf]

/-- A numeric-mode read with a valid address returns the decoded read loop
    output. -/
theorem getInt_eval (m : Mem) (loc lines : Nat)
    (hvalid : EStore.valid (int_to_symbols (loc : Int) 2) 2 = true)
    (hlines : 1 ≤ lines) :
    EStore.getInt m loc lines =
      .ok (symbols_to_int (EStore.getLines m loc lines).1,
        (EStore.getLines m loc lines).2) := by
  unfold EStore.getInt
  rw [if_pos hvalid, if_pos hlines]

/-- Reading two materialised lines concatenates them, store unchanged. -/
theorem getLines_two_present (m : Mem) (v : Nat) (k1 k2 val1 val2 : SymStr)
    (hk1 : int_to_symbols ((v % 1024 : Nat) : Int) 2 = k1)
    (hk2 : int_to_symbols (((v + 1) % 1024 : Nat) : Int) 2 = k2)
    (h1 : dictGet? m k1 = some val1) (h2 : dictGet? m k2 = some val2) :
    EStore.getLines m v 2 = (val1 ++ val2, m) := by
  show EStore.getLines m v (1 + 1) = _
  unfold EStore.getLines
  dsimp only
  rw [hk1, h1]
  dsimp only
  rw [h1, getLines_one_present m (v + 1) k2 val2 hk2 h2]
  simp

/-- C3 amended: executing store-accumulator (`@//S`, line-pair address 2)
    from accumulator `A` writes the encoding of `A mod 2^20` (digits plus a
    zero line) to addresses 2 and 3 and sets the instruction register to
    `A mod 2^20`; the subsequent load (`@/T/`) reading the same address
    restores `A mod 2^20` — not `A mod 2^40` — into the accumulator: the
    codec's fixed `2^20` modulus loses the upper 20 bits. -/
theorem spec_C3 (A : Int) :
    ReducedMachine.applyInstruction ⟨A, [], 0, 163842⟩ =
      .ok ⟨A, [(['@', '/'], storedLine A), (['A', '/'], ['/', '/', '/', '/'])], 0,
        (A % (2 : Int) ^ 20).toNat⟩ ∧
    ReducedMachine.applyInstruction
        ⟨A, [(['@', '/'], storedLine A), (['A', '/'], ['/', '/', '/', '/'])], 0, 16386⟩ =
      .ok ⟨A % 2 ^ 20,
        [(['@', '/'], storedLine A), (['A', '/'], ['/', '/', '/', '/'])], 0, 16386⟩ := by
  have hstep1 : ReducedMachine.applyInstruction ⟨A, [], 0, 163842⟩ =
      .ok ⟨A, [(['@', '/'], storedLine A), (['A', '/'], ['/', '/', '/', '/'])], 0,
        (A % (2 : Int) ^ 20).toNat⟩ := by
    have e1 : EStore.getInt [] (163842 % 1024) 1 =
        Except.ok (0, [(['@', '/'], ['/', '/', '/', '/'])]) := rfl
    have e2 : EStore.getInt [(['@', '/'], ['/', '/', '/', '/'])] (163842 % 1024) 2 =
        Except.ok (0, [(['@', '/'], ['/', '/', '/', '/']),
          (['A', '/'], ['/', '/', '/', '/'])]) := rfl
    have ef : List.drop 2 (int_to_symbols ((163842 : Nat) : Int) 4) = ['/', 'S'] := rfl
    have es : EStore.set
        [(['@', '/'], ['/', '/', '/', '/']), (['A', '/'], ['/', '/', '/', '/'])]
        (List.take 2 (int_to_symbols ((163842 : Nat) : Int) 4))
        (int_to_symbols A 8) =
        Except.ok [(['@', '/'], storedLine A), (['A', '/'], ['/', '/', '/', '/'])] := by
      rw [show List.take 2 (int_to_symbols ((163842 : Nat) : Int) 4) = ['@', '/'] from rfl]
      exact set_acc_eval A
    exact applyInstruction_store ⟨A, [], 0, 163842⟩ 0 0 _ _ _ e1 e2 ef es
  have hpresent1 : dictGet?
      [(['@', '/'], storedLine A), (['A', '/'], ['/', '/', '/', '/'])] ['@', '/'] =
      some (storedLine A) := by simp [dictGet?]
  have hpresent2 : dictGet?
      [(['@', '/'], storedLine A), (['A', '/'], ['/', '/', '/', '/'])] ['A', '/'] =
      some ['/', '/', '/', '/'] := by simp [dictGet?]
  have hget1 : EStore.getInt
      [(['@', '/'], storedLine A), (['A', '/'], ['/', '/', '/', '/'])]
      (16386 % 1024) 1 = .ok (symbols_to_int (storedLine A),
        [(['@', '/'], storedLine A), (['A', '/'], ['/', '/', '/', '/'])]) := by
    have hv : EStore.valid (int_to_symbols (((16386 % 1024 : Nat) : Nat) : Int) 2) 2 =
        true := rfl
    have hk : int_to_symbols (((16386 % 1024 : Nat) % 1024 : Nat) : Int) 2 =
        ['@', '/'] := rfl
    rw [getInt_eval _ _ _ hv (by decide),
      getLines_one_present _ (16386 % 1024) ['@', '/'] (storedLine A) hk hpresent1]
  have hget2 : EStore.getInt
      [(['@', '/'], storedLine A), (['A', '/'], ['/', '/', '/', '/'])]
      (16386 % 1024) 2 = .ok (symbols_to_int (storedLine A ++ ['/', '/', '/', '/']),
        [(['@', '/'], storedLine A), (['A', '/'], ['/', '/', '/', '/'])]) := by
    have hv : EStore.valid (int_to_symbols (((16386 % 1024 : Nat) : Nat) : Int) 2) 2 =
        true := rfl
    have hk1 : int_to_symbols (((16386 % 1024 : Nat) % 1024 : Nat) : Int) 2 =
        ['@', '/'] := rfl
    have hk2 : int_to_symbols (((16386 % 1024 + 1 : Nat) % 1024 : Nat) : Int) 2 =
        ['A', '/'] := rfl
    rw [getInt_eval _ _ _ hv (by decide),
      getLines_two_present _ (16386 % 1024) ['@', '/'] ['A', '/'] (storedLine A)
        ['/', '/', '/', '/'] hk1 hk2 hpresent1 hpresent2]
  have hf2 : List.drop 2 (int_to_symbols ((16386 : Nat) : Int) 4) = ['T', '/'] := rfl
  have hstep2 : ReducedMachine.applyInstruction
      ⟨A, [(['@', '/'], storedLine A), (['A', '/'], ['/', '/', '/', '/'])], 0, 16386⟩ =
      .ok ⟨((symbols_to_int (storedLine A ++ ['/', '/', '/', '/']) % 2 ^ 40 : Nat) : Int),
        [(['@', '/'], storedLine A), (['A', '/'], ['/', '/', '/', '/'])], 0, 16386⟩ :=
    applyInstruction_load
      ⟨A, [(['@', '/'], storedLine A), (['A', '/'], ['/', '/', '/', '/'])], 0, 16386⟩
      _ _ _ _ hget1 hget2 hf2
  have hdec : symbols_to_int (storedLine A ++ ['/', '/', '/', '/']) =
      (A % (2 ^ 20 : Int)).toNat := by
    rw [symbols_to_int_append, storedLine_decode,
      show symbols_to_int ['/', '/', '/', '/'] = 0 from rfl]
    simp
  have hacc : ((symbols_to_int (storedLine A ++ ['/', '/', '/', '/']) % 2 ^ 40 : Nat) :
      Int) = A % 2 ^ 20 := by
    rw [hdec, Nat.mod_eq_of_lt (lt_of_lt_of_le (emod20_toNat_lt A) (by norm_num))]
    omega
  rw [hacc] at hstep2
  exact ⟨hstep1, hstep2⟩
